import Mathlib

/-!
# Verification of the sordid-keyboard re-sorting engine

A shallow embedding of the key re-sorting / row-reflow algorithm of the
`sordid-keyboard` repository, which exists in two layout variants:

* variant A (`autosort.js`): a 3-row layout; `sortKeys` promotes the pressed
  key to the top-left slot and then moves the last key of each row strictly
  above the pressed key's old row down into the next row (row-count policy);
* variant B (the 4-row file): `sortKeys` promotes the pressed key and then,
  for every row except the last, sheds the row's last key down into the next
  row while the row is wider than its `defaultRowWidth` (width-budget policy).

Keys are identified by their display character together with their width;
in the program every key has a distinct display character, so this equality
coincides with the JavaScript object identity used by `getKeyPos`.
All widths in the program are the positive constants 50/60/80/100/200, so
widths are modelled as `Nat`.
-/

/-- A key of the keyboard: display character plus width in px
(`Key` class: `displayStr`, `width`). DOM/event fields are presentation
plumbing and are not part of the model. -/
structure Key where
  label : Char
  width : Nat
deriving DecidableEq

/-- `"Standard"` letter key width (`KEY_WIDTH = 50`, same in both variants). -/
def KEY_WIDTH : Nat := 50

/-- JavaScript `arr.splice(i, 1)` for `i ≥ 0`: removes the element at index
`i`; out-of-range indices remove nothing. -/
def spliceRemove (l : List α) (i : Nat) : List α :=
  l.take i ++ l.drop (i + 1)

/-- JavaScript `arr.splice(i, 0, a)` for `i ≥ 0`: inserts `a` at index `i`;
indices past the end append (splice clamps to the length). -/
def spliceInsert (l : List α) (i : Nat) (a : α) : List α :=
  l.take i ++ a :: l.drop i

/-- Replace the `i`-th element of `l` by `f` of it (in-place array update on
`this.keyRows[i]`); no effect when `i` is out of range. -/
def modifyIdx : List α → Nat → (α → α) → List α
  | [], _, _ => []
  | x :: xs, 0, f => f x :: xs
  | x :: xs, n + 1, f => x :: modifyIdx xs n f

/-- `KeyboardRow.rowWidth`: `this.keys.reduce((prev, cur) => prev + cur.width, 0)`. -/
def rowWidth (keys : List Key) : Nat :=
  keys.foldl (fun prev cur => prev + cur.width) 0

/-- `Array.prototype.findIndex((k) => k === key)`, returning `none` for `-1`. -/
def findCol (pk : Key) : List Key → Option Nat
  | [] => none
  | k :: ks => if k = pk then some 0 else (findCol pk ks).map (· + 1)

/-- `Keyboard.getKeyPos`: scan the rows top to bottom; in each row use
`findIndex` to locate the key; return the first `(row, col)` found, and
`none` (the JS function falls through to `console.error` and returns
`undefined`) when the key is in no row. -/
def getKeyPos : List (List Key) → Key → Option (Nat × Nat)
  | [], _ => none
  | r :: rs, pk =>
    match findCol pk r with
    | some c => some (0, c)
    | none => (getKeyPos rs pk).map (fun rc => (rc.1 + 1, rc.2))

/-- `Keyboard.moveKey(key, fromRow, fromCol, toRow, toCol)` restricted to its
model effect: `this.keyRows[fromRow].keys.splice(fromCol, 1)` followed by
`this.keyRows[toRow].keys.splice(toCol, 0, key)` (the paired DOM edits mirror
these two splices; `console.assert` only logs and never aborts). -/
def moveKeyRows (rows : List (List Key)) (key : Key)
    (fromRow fromCol toRow toCol : Nat) : List (List Key) :=
  modifyIdx (modifyIdx rows fromRow (fun r => spliceRemove r fromCol))
    toRow (fun r => spliceInsert r toCol key)

/-!
## Variant A: the row-count reflow loop of `autosort.js`

```
for (let i = 0; i < oldRow; i++) {
  const keysArr = this.keyRows[i].keys;
  const key = keysArr[keysArr.length - 1];
  this.moveKey(key, i, keysArr.length - 1, i + 1, 0);
}
```

The loop is modelled pairwise: iteration `i` removes the last key of row `i`
and conses it onto row `i + 1`, which is exactly what
`moveKey(key, i, len - 1, i + 1, 0)` does; the recursion then continues with
the updated row `i + 1` at the head.  `shiftDownE` also records the crash
paths of the JavaScript (reading `undefined` as a key, or indexing a row past
the end), carrying the layout state at the moment the exception is thrown;
these paths are unreachable for the positions `getKeyPos` can produce.
-/

/-- The variant-A reflow loop with explicit crash states. -/
def shiftDownE : List (List Key) → Nat → Except (List (List Key)) (List (List Key))
  | rows, 0 => .ok rows
  | [], _ + 1 => .error []
  | [r], _ + 1 =>
    match r.getLast? with
    | none => .error [r]
    | some _ => .error [r.dropLast]
  | r1 :: r2 :: rs, n + 1 =>
    match r1.getLast? with
    | none => .error (r1 :: r2 :: rs)
    | some k =>
      match shiftDownE ((k :: r2) :: rs) n with
      | .ok rest => .ok (r1.dropLast :: rest)
      | .error st => .error (r1.dropLast :: st)

/-- The variant-A reflow loop, successful results only. -/
def shiftDown : List (List Key) → Nat → Option (List (List Key))
  | rows, 0 => some rows
  | [], _ + 1 => none
  | [_], _ + 1 => none
  | r1 :: r2 :: rs, n + 1 =>
    r1.getLast?.bind fun k =>
      (shiftDown ((k :: r2) :: rs) n).map (fun rest => r1.dropLast :: rest)

/-- Variant-A `Keyboard.sortKeys(pressedKey)` with the crash state carried in
the error: locate the key (a failed lookup makes the destructuring
`const { row: oldRow, col: oldCol } = undefined` throw before any mutation,
so the error carries the unchanged layout), promote it to `(0, 0)` via
`moveKey`, then run the row-count loop. -/
def sortKeysAErr (rows : List (List Key)) (pk : Key) :
    Except (List (List Key)) (List (List Key)) :=
  match getKeyPos rows pk with
  | none => .error rows
  | some (oldRow, oldCol) =>
    shiftDownE (moveKeyRows rows pk oldRow oldCol 0 0) oldRow

/-- Variant-A `Keyboard.sortKeys`, successful results only. -/
def sortKeysA (rows : List (List Key)) (pk : Key) : Option (List (List Key)) :=
  match getKeyPos rows pk with
  | none => none
  | some (oldRow, oldCol) =>
    shiftDown (moveKeyRows rows pk oldRow oldCol 0 0) oldRow

/-!
## Variant B: the width-budget reflow of the 4-row file
-/

/-- The variant-B keyboard: the rows' key lists together with each row's
`defaultRowWidth` (snapshotted at construction and never changed by
`sortKeys`; the rows themselves never move, only keys do). -/
structure KeyboardB where
  rows : List (List Key)
  budgets : List Nat
deriving DecidableEq

/-- One row's while loop,
`while (keyRow.rowWidth() > keyRow.defaultRowWidth) { ... moveKey(lastKey, i, len-1, i+1, 0) }`,
with explicit fuel. Each iteration removes the row's last key and conses it
onto the next row, so `row.length` iterations always suffice (an empty row
has width `0 ≤ budget`, so the guard fails). -/
def shedF (budget : Nat) : Nat → List Key → List Key → List Key × List Key
  | 0, row, next => (row, next)
  | fuel + 1, row, next =>
    if budget < rowWidth row then
      row.getLast?.elim (row, next) (fun k => shedF budget fuel row.dropLast (k :: next))
    else (row, next)

/-- One row's while loop: shed the last key of `row` into the head of `next`
while `row` is wider than `budget`. -/
def shed (budget : Nat) (row next : List Key) : List Key × List Key :=
  shedF budget row.length row next

/-- The variant-B reflow loop,
`for (let i = 0; i < this.keyRows.length - 1; i++) { ...while...(budget i) }`:
process the rows top to bottom, shedding each row's overflow into the row
below; the last row is never shed from. Recursion is on the budget list,
which in the program always has one budget per row. -/
def reflowB : List Nat → List (List Key) → List (List Key)
  | _, [] => []
  | _, [r] => [r]
  | [], r1 :: r2 :: rs => r1 :: r2 :: rs
  | b :: bs, r1 :: r2 :: rs =>
    let p := shed b r1 r2
    p.1 :: reflowB bs (p.2 :: rs)

/-- Variant-B `Keyboard.sortKeys(pressedKey)` with the crash state carried in
the error: a failed lookup throws before any mutation (layout unchanged);
otherwise promote the key to `(0, 0)` and run the width-budget loop, which
never fails. `defaultRowWidth`s are untouched. -/
def sortKeysBErr (kb : KeyboardB) (pk : Key) : Except KeyboardB KeyboardB :=
  match getKeyPos kb.rows pk with
  | none => .error kb
  | some (oldRow, oldCol) =>
    .ok ⟨reflowB kb.budgets (moveKeyRows kb.rows pk oldRow oldCol 0 0), kb.budgets⟩

/-- Variant-B `Keyboard.sortKeys`, successful results only. -/
def sortKeysB (kb : KeyboardB) (pk : Key) : Option KeyboardB :=
  match getKeyPos kb.rows pk with
  | none => none
  | some (oldRow, oldCol) =>
    some ⟨reflowB kb.budgets (moveKeyRows kb.rows pk oldRow oldCol 0 0), kb.budgets⟩

/-!
## `Keyboard.getKey` and its JavaScript value semantics
-/

/-- The JavaScript values `Keyboard.getKey` can produce: `null`, `undefined`,
or a `Key` object. `null` and `undefined` are distinct values. -/
inductive JSVal where
  | jsNull : JSVal
  | jsUndefined : JSVal
  | jsKey : Key → JSVal
deriving DecidableEq

/-- `Keyboard.getKey(row, col)` as written: the guard is
`row < 0 || row >= this.keyRows.length || col < 0 || col >= this.keyRows[row].length`.
`this.keyRows[row]` is a `KeyboardRow` object, which has **no** `length`
property, so `col >= undefined` evaluates to `false` for every number `col`
and the fourth disjunct never fires; for an in-range row, `keyRow.keys[col]`
then yields the element or JavaScript `undefined` when `col` is past the
end. -/
def getKey (rows : List (List Key)) (row col : Int) : JSVal :=
  if row < 0 ∨ (rows.length : Int) ≤ row ∨ col < 0 then
    JSVal.jsNull
  else
    match (rows.getD row.toNat [])[col.toNat]? with
    | some k => JSVal.jsKey k
    | none => JSVal.jsUndefined

/-!
## The two concrete keyboards built by the constructors
-/

/-- The letter keys made from one string of `DEFAULT_LAYOUT`
(`rowStr.split("").map(char => new Key({...}))`, default width). -/
def letterKeys (s : String) : List Key :=
  s.toList.map (fun c => ⟨c, KEY_WIDTH⟩)

/-- Variant A's keyboard: `["qwertyuiop", "asdfghjkl", "zxcvbnm"]` with a
width-80 backspace pushed onto row 0 and a width-60 enter onto row 1. -/
def initialA : List (List Key) :=
  [letterKeys "qwertyuiop" ++ [⟨'←', 80⟩],
   letterKeys "asdfghjkl" ++ [⟨'↵', 60⟩],
   letterKeys "zxcvbnm"]

/-- Variant B's rows: `["qwertyuiop", "asdfghjkl", "zxcvbnm", ""]` with a
width-100 backspace on row 0, a width-100 enter on row 1 and a width-200
spacebar on row 3 (each added with `addDefaultKey`). -/
def initialRowsB : List (List Key) :=
  [letterKeys "qwertyuiop" ++ [⟨'←', 100⟩],
   letterKeys "asdfghjkl" ++ [⟨'↵', 100⟩],
   letterKeys "zxcvbnm",
   [⟨'―', 200⟩]]

/-- Variant B's keyboard: each row's `defaultRowWidth` is snapshotted as the
row's width once all its initial keys (`addDefaultKey` included) are in. -/
def initialB : KeyboardB :=
  ⟨initialRowsB, initialRowsB.map rowWidth⟩

/-!
## Reachable engine states

A press of key `pk` calls `sortKeys(pk)`; the reachable layouts are those
produced from the constructor's layout by successful presses.
-/

/-- Layouts of variant A reachable by presses. -/
inductive ReachableA : List (List Key) → Prop where
  | init : ReachableA initialA
  | step {rows rows' : List (List Key)} {pk : Key} :
      ReachableA rows → sortKeysA rows pk = some rows' → ReachableA rows'

/-- Keyboards of variant B reachable by presses. -/
inductive ReachableB : KeyboardB → Prop where
  | init : ReachableB initialB
  | step {kb kb' : KeyboardB} {pk : Key} :
      ReachableB kb → sortKeysB kb pk = some kb' → ReachableB kb'

/-- `ShedSteps st i n st'`: starting from layout `st` at row index `i`,
performing exactly `n` `moveKey` calls — each moving the current last key of
row `i` into column 0 of row `i + 1`, once per row, `i` increasing — yields
`st'`. This is the row-count policy as the spec describes it. -/
inductive ShedSteps : List (List Key) → Nat → Nat → List (List Key) → Prop where
  | nil (st : List (List Key)) (i : Nat) : ShedSteps st i 0 st
  | cons {st st' : List (List Key)} {i n : Nat} {k : Key} :
      (st.getD i []).getLast? = some k →
      ShedSteps (moveKeyRows st k i ((st.getD i []).length - 1) (i + 1) 0)
        (i + 1) n st' →
      ShedSteps st i (n + 1) st'

/-!
## Basic lemmas about the list helpers
-/

theorem rowWidth_foldl (l : List Key) (a : Nat) :
    l.foldl (fun prev cur => prev + cur.width) a = a + rowWidth l := by
  induction l generalizing a with
  | nil => simp [rowWidth]
  | cons k t ih =>
    simp only [rowWidth, List.foldl_cons]
    rw [ih, ih (0 + k.width)]
    omega

theorem rowWidth_nil : rowWidth [] = 0 := rfl

theorem rowWidth_cons (k : Key) (t : List Key) :
    rowWidth (k :: t) = k.width + rowWidth t := by
  show (k :: t).foldl (fun prev cur => prev + cur.width) 0 = k.width + rowWidth t
  rw [List.foldl_cons, rowWidth_foldl]
  omega

theorem rowWidth_append (l₁ l₂ : List Key) :
    rowWidth (l₁ ++ l₂) = rowWidth l₁ + rowWidth l₂ := by
  induction l₁ with
  | nil => simp [rowWidth_nil]
  | cons k t ih => simp [rowWidth_cons, ih]; omega

theorem rowWidth_eq_zero (l : List Key) (h : l = []) : rowWidth l = 0 := by
  subst h; rfl

theorem ne_nil_of_getLast? {l : List α} {k : α} (h : l.getLast? = some k) :
    l ≠ [] := by
  intro hl; subst hl; simp at h

theorem dropLast_append_of_getLast? {l : List α} {k : α}
    (h : l.getLast? = some k) : l.dropLast ++ [k] = l := by
  have hne : l ≠ [] := ne_nil_of_getLast? h
  have := List.getLast?_eq_getLast l hne
  rw [this] at h
  injection h with h
  rw [← h] at *
  exact List.dropLast_append_getLast hne

theorem rowWidth_of_getLast? {l : List Key} {k : Key}
    (h : l.getLast? = some k) : rowWidth l = rowWidth l.dropLast + k.width := by
  conv_lhs => rw [← dropLast_append_of_getLast? h]
  rw [rowWidth_append, rowWidth_cons, rowWidth_nil]
  omega

theorem getLast?_cons_of_ne_nil {x : α} {l : List α} (h : l ≠ []) :
    (x :: l).getLast? = l.getLast? := by
  cases l with
  | nil => exact absurd rfl h
  | cons y t => exact List.getLast?_cons_cons

theorem dropLast_cons_of_ne_nil {x : α} {l : List α} (h : l ≠ []) :
    (x :: l).dropLast = x :: l.dropLast := by
  cases l with
  | nil => exact absurd rfl h
  | cons y t => exact List.dropLast_cons₂

/-! ### `modifyIdx` -/

theorem modifyIdx_length (l : List α) (i : Nat) (f : α → α) :
    (modifyIdx l i f).length = l.length := by
  induction l generalizing i with
  | nil => rfl
  | cons x xs ih =>
    cases i with
    | zero => rfl
    | succ n => simp [modifyIdx, ih]

theorem modifyIdx_of_le {l : List α} {i : Nat} (f : α → α)
    (h : l.length ≤ i) : modifyIdx l i f = l := by
  induction l generalizing i with
  | nil => rfl
  | cons x xs ih =>
    cases i with
    | zero => simp at h
    | succ n =>
      simp only [List.length_cons] at h
      have hn : xs.length ≤ n := by omega
      simp [modifyIdx, ih hn]

theorem modifyIdx_getD_eq {l : List α} {i : Nat} (f : α → α) (d : α)
    (h : i < l.length) : (modifyIdx l i f).getD i d = f (l.getD i d) := by
  induction l generalizing i with
  | nil => simp at h
  | cons x xs ih =>
    cases i with
    | zero => rfl
    | succ n =>
      simp only [List.length_cons] at h
      simpa [modifyIdx] using ih (by omega)

theorem modifyIdx_getD_ne {l : List α} {i j : Nat} (f : α → α) (d : α)
    (h : i ≠ j) : (modifyIdx l i f).getD j d = l.getD j d := by
  induction l generalizing i j with
  | nil => rfl
  | cons x xs ih =>
    cases i with
    | zero =>
      cases j with
      | zero => exact absurd rfl h
      | succ m => rfl
    | succ n =>
      cases j with
      | zero => rfl
      | succ m => simpa [modifyIdx] using ih (by omega)

theorem flatten_modifyIdx {l : List (List α)} {i : Nat}
    (h : i < l.length) :
    ∃ pre suf, l.flatten = pre ++ l.getD i [] ++ suf ∧
      ∀ f, (modifyIdx l i f).flatten = pre ++ f (l.getD i []) ++ suf := by
  induction l generalizing i with
  | nil => simp at h
  | cons x xs ih =>
    cases i with
    | zero =>
      exact ⟨[], xs.flatten, by simp [modifyIdx]⟩
    | succ n =>
      simp only [List.length_cons] at h
      obtain ⟨pre, suf, h1, h2⟩ := ih (i := n) (by omega)
      refine ⟨x ++ pre, suf, ?_, fun f => ?_⟩
      · simp [h1]
      · simp [modifyIdx, h2 f]

/-! ### splices -/

theorem spliceInsert_zero (l : List α) (a : α) : spliceInsert l 0 a = a :: l := rfl

theorem spliceRemove_cons_zero (x : α) (l : List α) :
    spliceRemove (x :: l) 0 = l := rfl

theorem take_cons_drop_of_getElem? {l : List α} {i : Nat} {a : α}
    (h : l[i]? = some a) : l.take i ++ a :: l.drop (i + 1) = l := by
  induction l generalizing i with
  | nil => simp at h
  | cons x xs ih =>
    cases i with
    | zero =>
      simp only [List.getElem?_cons_zero, Option.some.injEq] at h
      simp [h]
    | succ n =>
      simp only [List.getElem?_cons_succ] at h
      simpa using ih h

theorem spliceRemove_perm {l : List α} {i : Nat} {a : α}
    (h : l[i]? = some a) : (a :: spliceRemove l i).Perm l := by
  conv_rhs => rw [← take_cons_drop_of_getElem? h]
  exact (List.perm_middle).symm

theorem spliceInsert_perm (l : List α) (i : Nat) (a : α) :
    (spliceInsert l i a).Perm (a :: l) := by
  have h : (l.take i ++ a :: l.drop i).Perm (a :: (l.take i ++ l.drop i)) :=
    List.perm_middle
  simpa [spliceInsert, List.take_append_drop] using h

theorem spliceRemove_last {l : List α} {k : α}
    (h : l.getLast? = some k) : spliceRemove l (l.length - 1) = l.dropLast := by
  have hne : l ≠ [] := ne_nil_of_getLast? h
  have hpos : 0 < l.length := List.length_pos.mpr hne
  unfold spliceRemove
  have h1 : List.take (l.length - 1) l = l.dropLast := (List.dropLast_eq_take l).symm
  have h2 : List.drop (l.length - 1 + 1) l = [] :=
    List.drop_eq_nil_of_le (by omega)
  rw [h1, h2, List.append_nil]

theorem rowWidth_spliceRemove {l : List Key} {i : Nat} {a : Key}
    (h : l[i]? = some a) : rowWidth l = a.width + rowWidth (spliceRemove l i) := by
  conv_lhs => rw [← take_cons_drop_of_getElem? h]
  unfold spliceRemove
  rw [rowWidth_append, rowWidth_cons, rowWidth_append]
  omega

theorem rowWidth_spliceInsert (l : List Key) (i : Nat) (a : Key) :
    rowWidth (spliceInsert l i a) = a.width + rowWidth l := by
  conv_rhs => rw [← List.take_append_drop i l]
  unfold spliceInsert
  rw [rowWidth_append, rowWidth_cons, rowWidth_append]
  omega

/-! ### `findCol` and `getKeyPos` -/

theorem findCol_getElem? {pk : Key} {l : List Key} {c : Nat}
    (h : findCol pk l = some c) : l[c]? = some pk := by
  induction l generalizing c with
  | nil => simp [findCol] at h
  | cons k ks ih =>
    by_cases hk : k = pk
    · simp [findCol, hk] at h
      subst hk h
      simp
    · simp only [findCol, if_neg hk] at h
      cases hc : findCol pk ks with
      | none => rw [hc] at h; simp at h
      | some c' =>
        rw [hc] at h
        simp only [Option.map_some', Option.some.injEq] at h
        subst h
        simpa using ih hc

theorem findCol_none {pk : Key} {l : List Key} :
    findCol pk l = none ↔ pk ∉ l := by
  induction l with
  | nil => simp [findCol]
  | cons k ks ih =>
    by_cases hk : k = pk
    · simp [findCol, hk]
    · simp [findCol, hk, ih, Option.map_eq_none']
      intro h
      exact fun hmem => hk (hmem.symm)

theorem findCol_zero {pk : Key} {l : List Key}
    (h : findCol pk l = some 0) : ∃ t, l = pk :: t := by
  cases l with
  | nil => simp [findCol] at h
  | cons k ks =>
    by_cases hk : k = pk
    · subst hk; exact ⟨ks, rfl⟩
    · simp only [findCol, if_neg hk] at h
      cases hc : findCol pk ks with
      | none => rw [hc] at h; simp at h
      | some c' => rw [hc] at h; simp at h

theorem findCol_cons_self (pk : Key) (t : List Key) :
    findCol pk (pk :: t) = some 0 := by
  simp [findCol]

theorem getKeyPos_getElem? {rows : List (List Key)} {pk : Key} {r c : Nat}
    (h : getKeyPos rows pk = some (r, c)) : (rows.getD r [])[c]? = some pk := by
  induction rows generalizing r with
  | nil => simp [getKeyPos] at h
  | cons r0 rs ih =>
    simp only [getKeyPos] at h
    cases hf : findCol pk r0 with
    | some c0 =>
      rw [hf] at h
      simp only [Option.some.injEq, Prod.mk.injEq] at h
      obtain ⟨h1, h2⟩ := h
      subst h1; subst h2
      simpa using findCol_getElem? hf
    | none =>
      rw [hf] at h
      cases hg : getKeyPos rs pk with
      | none => rw [hg] at h; simp at h
      | some rc =>
        rw [hg] at h
        simp only [Option.map_some', Option.some.injEq] at h
        obtain ⟨rr, cc⟩ := rc
        cases h
        simpa using ih hg

theorem getKeyPos_row_lt {rows : List (List Key)} {pk : Key} {r c : Nat}
    (h : getKeyPos rows pk = some (r, c)) : r < rows.length := by
  by_contra hge
  have := getKeyPos_getElem? h
  rw [List.getD_eq_default _ _ (by omega)] at this
  simp at this

theorem getKeyPos_col_lt {rows : List (List Key)} {pk : Key} {r c : Nat}
    (h : getKeyPos rows pk = some (r, c)) : c < (rows.getD r []).length := by
  have := getKeyPos_getElem? h
  by_contra hge
  rw [List.getElem?_eq_none (by omega)] at this
  simp at this

theorem getKeyPos_mem {rows : List (List Key)} {pk : Key} {r c : Nat}
    (h : getKeyPos rows pk = some (r, c)) : pk ∈ rows.flatten := by
  have h1 := getKeyPos_getElem? h
  have hr := getKeyPos_row_lt h
  have hmem : pk ∈ rows.getD r [] := by
    have hc := getKeyPos_col_lt h
    rw [List.getElem?_eq_getElem hc] at h1
    injection h1 with h1
    rw [← h1]
    exact List.getElem_mem hc
  rw [List.mem_flatten]
  refine ⟨rows.getD r [], ?_, hmem⟩
  rw [List.getD_eq_getElem _ _ hr]
  exact List.getElem_mem hr

theorem findCol_mem {pk : Key} {l : List Key} {c : Nat}
    (h : findCol pk l = some c) : pk ∈ l := by
  have h1 := findCol_getElem? h
  have hc : c < l.length := by
    by_contra hge
    rw [List.getElem?_eq_none (by omega)] at h1
    simp at h1
  rw [List.getElem?_eq_getElem hc] at h1
  injection h1 with h1
  rw [← h1]
  exact List.getElem_mem hc

theorem getKeyPos_none {rows : List (List Key)} {pk : Key} :
    getKeyPos rows pk = none ↔ pk ∉ rows.flatten := by
  induction rows with
  | nil => simp [getKeyPos]
  | cons r0 rs ih =>
    simp only [getKeyPos]
    cases hf : findCol pk r0 with
    | some c0 =>
      apply iff_of_false (by simp)
      intro hno
      exact hno (by
        rw [List.flatten_cons, List.mem_append]
        exact Or.inl (findCol_mem hf))
    | none =>
      rw [Option.map_eq_none', ih, List.flatten_cons]
      have hn : pk ∉ r0 := findCol_none.mp hf
      constructor
      · intro h hmem
        rcases List.mem_append.mp hmem with h0 | h0
        · exact hn h0
        · exact h h0
      · intro h hmem
        exact h (List.mem_append.mpr (Or.inr hmem))

theorem getKeyPos_cons_head (pk : Key) (t : List Key) (rest : List (List Key)) :
    getKeyPos ((pk :: t) :: rest) pk = some (0, 0) := by
  simp [getKeyPos, findCol_cons_self]

theorem getKeyPos_zero_zero {rows : List (List Key)} {pk : Key}
    (h : getKeyPos rows pk = some (0, 0)) :
    ∃ t rest, rows = (pk :: t) :: rest := by
  cases rows with
  | nil => simp [getKeyPos] at h
  | cons r0 rs =>
    simp only [getKeyPos] at h
    cases hf : findCol pk r0 with
    | some c0 =>
      rw [hf] at h
      simp only [Option.some.injEq, Prod.mk.injEq] at h
      obtain ⟨-, h2⟩ := h
      subst h2
      obtain ⟨t, ht⟩ := findCol_zero hf
      exact ⟨t, rs, by rw [ht]⟩
    | none =>
      rw [hf] at h
      cases hg : getKeyPos rs pk with
      | none => rw [hg] at h; simp at h
      | some rc => rw [hg] at h; simp at h

/-! ### The variant-A loop -/

theorem shiftDown_zero (st : List (List Key)) : shiftDown st 0 = some st := by
  simp [shiftDown]

theorem shiftDown_cons_cons (r1 r2 : List Key) (rs : List (List Key)) (n : Nat) :
    shiftDown (r1 :: r2 :: rs) (n + 1) =
      r1.getLast?.bind fun k =>
        (shiftDown ((k :: r2) :: rs) n).map (fun rest => r1.dropLast :: rest) := by
  simp [shiftDown]

theorem shiftDown_eq_toOption (st : List (List Key)) (n : Nat) :
    (shiftDownE st n).toOption = shiftDown st n := by
  induction n generalizing st with
  | zero => simp [shiftDownE, shiftDown, Except.toOption]
  | succ n ih =>
    match st with
    | [] => simp [shiftDownE, shiftDown, Except.toOption]
    | [r] =>
      simp only [shiftDownE, shiftDown]
      cases r.getLast? <;> rfl
    | r1 :: r2 :: rs =>
      rw [shiftDown_cons_cons]
      cases hl : r1.getLast? with
      | none => simp [shiftDownE, hl, Except.toOption]
      | some k =>
        simp only [shiftDownE, hl, Option.some_bind]
        rw [← ih ((k :: r2) :: rs)]
        cases shiftDownE ((k :: r2) :: rs) n <;> rfl

theorem sortKeysA_eq_toOption (rows : List (List Key)) (pk : Key) :
    (sortKeysAErr rows pk).toOption = sortKeysA rows pk := by
  unfold sortKeysAErr sortKeysA
  cases getKeyPos rows pk with
  | none => rfl
  | some rc => exact shiftDown_eq_toOption _ _

theorem shiftDown_flatten {st st' : List (List Key)} {n : Nat}
    (h : shiftDown st n = some st') : st'.flatten = st.flatten := by
  induction n generalizing st st' with
  | zero =>
    rw [shiftDown_zero] at h
    injection h with h
    rw [h]
  | succ n ih =>
    match st with
    | [] => simp [shiftDown] at h
    | [r] => simp [shiftDown] at h
    | r1 :: r2 :: rs =>
      rw [shiftDown_cons_cons] at h
      cases hl : r1.getLast? with
      | none => rw [hl] at h; simp at h
      | some k =>
        rw [hl, Option.some_bind] at h
        cases hs : shiftDown ((k :: r2) :: rs) n with
        | none => rw [hs] at h; simp at h
        | some rest =>
          rw [hs] at h
          simp only [Option.map_some', Option.some.injEq] at h
          subst h
          have hr := ih hs
          simp only [List.flatten_cons] at hr ⊢
          rw [hr]
          have : r1.dropLast ++ (k :: r2 ++ rs.flatten) =
              (r1.dropLast ++ [k]) ++ (r2 ++ rs.flatten) := by simp
          rw [this, dropLast_append_of_getLast? hl]

theorem shiftDown_length {st st' : List (List Key)} {n : Nat}
    (h : shiftDown st n = some st') : st'.length = st.length := by
  induction n generalizing st st' with
  | zero =>
    rw [shiftDown_zero] at h
    injection h with h
    rw [h]
  | succ n ih =>
    match st with
    | [] => simp [shiftDown] at h
    | [r] => simp [shiftDown] at h
    | r1 :: r2 :: rs =>
      rw [shiftDown_cons_cons] at h
      cases hl : r1.getLast? with
      | none => rw [hl] at h; simp at h
      | some k =>
        rw [hl, Option.some_bind] at h
        cases hs : shiftDown ((k :: r2) :: rs) n with
        | none => rw [hs] at h; simp at h
        | some rest =>
          rw [hs] at h
          simp only [Option.map_some', Option.some.injEq] at h
          subst h
          have := ih hs
          simp at this ⊢
          omega

theorem shiftDown_cons_head {pk : Key} {a : List Key} {rest st' : List (List Key)}
    {n : Nat} (ha : a ≠ [])
    (h : shiftDown ((pk :: a) :: rest) n = some st') :
    ∃ t rest2, st' = (pk :: t) :: rest2 := by
  cases n with
  | zero =>
    rw [shiftDown_zero] at h
    injection h with h
    exact ⟨a, rest, h.symm⟩
  | succ n =>
    match rest with
    | [] => simp [shiftDown] at h
    | r2 :: rs =>
      rw [shiftDown_cons_cons] at h
      cases hl : (pk :: a).getLast? with
      | none => rw [hl] at h; simp at h
      | some k =>
        rw [hl, Option.some_bind] at h
        cases hs : shiftDown ((k :: r2) :: rs) n with
        | none => rw [hs] at h; simp at h
        | some inner =>
          rw [hs] at h
          simp only [Option.map_some', Option.some.injEq] at h
          refine ⟨a.dropLast, inner, ?_⟩
          rw [← h, dropLast_cons_of_ne_nil ha]

/-! ### Promotion and key conservation -/

theorem moveKeyRows_length (rows : List (List Key)) (key : Key)
    (fr fc tr tc : Nat) : (moveKeyRows rows key fr fc tr tc).length = rows.length := by
  unfold moveKeyRows
  rw [modifyIdx_length, modifyIdx_length]

theorem moveKeyRows_promote_zero (r0 : List Key) (rest : List (List Key))
    (pk : Key) (c : Nat) :
    moveKeyRows (r0 :: rest) pk 0 c 0 0 = (pk :: spliceRemove r0 c) :: rest := by
  unfold moveKeyRows
  simp [modifyIdx, spliceInsert_zero]

theorem moveKeyRows_promote_succ (r0 : List Key) (rest : List (List Key))
    (pk : Key) (r c : Nat) :
    moveKeyRows (r0 :: rest) pk (r + 1) c 0 0 =
      (pk :: r0) :: modifyIdx rest r (fun row => spliceRemove row c) := by
  unfold moveKeyRows
  simp [modifyIdx, spliceInsert_zero]

theorem perm_insert_middle (pre suf : List α) (a : α) (l : List α) :
    (pre ++ (a :: l) ++ suf).Perm (a :: (pre ++ l ++ suf)) := by
  simp only [List.append_assoc, List.cons_append]
  exact List.perm_middle

theorem moveKeyRows_flatten_perm {rows : List (List Key)} {key : Key}
    {fr fc : Nat} (tr tc : Nat)
    (hfr : (rows.getD fr [])[fc]? = some key) (htr : tr < rows.length) :
    (moveKeyRows rows key fr fc tr tc).flatten.Perm rows.flatten := by
  have hfrlt : fr < rows.length := by
    by_contra hge
    rw [List.getD_eq_default _ _ (by omega)] at hfr
    simp at hfr
  obtain ⟨pre, suf, h1, h2⟩ := flatten_modifyIdx (l := rows) (i := fr) hfrlt
  set rows1 := modifyIdx rows fr (fun r => spliceRemove r fc) with hrows1
  have htr1 : tr < rows1.length := by rw [hrows1, modifyIdx_length]; exact htr
  obtain ⟨pre2, suf2, h3, h4⟩ := flatten_modifyIdx (l := rows1) (i := tr) htr1
  have main2 : (pre2 ++ spliceInsert (rows1.getD tr []) tc key ++ suf2).Perm
      (key :: (pre2 ++ rows1.getD tr [] ++ suf2)) :=
    (((spliceInsert_perm (rows1.getD tr []) tc key).append_left pre2).append_right
      suf2).trans (perm_insert_middle pre2 suf2 key (rows1.getD tr []))
  have p3 : (key :: (pre ++ spliceRemove (rows.getD fr []) fc ++ suf)).Perm
      (pre ++ rows.getD fr [] ++ suf) :=
    (perm_insert_middle pre suf key (spliceRemove (rows.getD fr []) fc)).symm.trans
      (((spliceRemove_perm hfr).append_left pre).append_right suf)
  have goal1 : (modifyIdx rows1 tr (fun r => spliceInsert r tc key)).flatten.Perm
      (key :: rows1.flatten) := by
    rw [h4 (fun r => spliceInsert r tc key), h3]
    exact main2
  have goal2 : (key :: rows1.flatten).Perm rows.flatten := by
    rw [h2 (fun r => spliceRemove r fc), h1]
    exact p3
  exact goal1.trans goal2

/-! ### The width-budget loop -/

theorem ne_nil_of_budget_lt {b : Nat} {row : List Key} (hb : b < rowWidth row) :
    row ≠ [] := by
  intro h
  rw [h, rowWidth_nil] at hb
  omega

theorem exists_getLast?_of_ne_nil {l : List α} (h : l ≠ []) :
    ∃ k, l.getLast? = some k :=
  ⟨l.getLast h, List.getLast?_eq_getLast l h⟩

theorem shedF_noop {b : Nat} {row : List Key} (fuel : Nat) (next : List Key)
    (h : rowWidth row ≤ b) : shedF b fuel row next = (row, next) := by
  cases fuel with
  | zero => rfl
  | succ fuel => simp [shedF, if_neg (by omega : ¬ b < rowWidth row)]

theorem shed_noop {b : Nat} {row : List Key} (next : List Key)
    (h : rowWidth row ≤ b) : shed b row next = (row, next) :=
  shedF_noop _ _ h

theorem shedF_append (b : Nat) :
    ∀ (fuel : Nat) (row next : List Key),
      (shedF b fuel row next).1 ++ (shedF b fuel row next).2 = row ++ next := by
  intro fuel
  induction fuel with
  | zero => intro row next; rfl
  | succ fuel ih =>
    intro row next
    by_cases hb : b < rowWidth row
    · have hne := ne_nil_of_budget_lt hb
      obtain ⟨k, hk⟩ := exists_getLast?_of_ne_nil hne
      simp only [shedF, if_pos hb, hk, Option.elim]
      rw [ih]
      conv_rhs => rw [← dropLast_append_of_getLast? hk]
      simp
    · simp [shedF, if_neg hb]

theorem shed_append (b : Nat) (row next : List Key) :
    (shed b row next).1 ++ (shed b row next).2 = row ++ next :=
  shedF_append b _ row next

theorem shedF_width_le (b : Nat) :
    ∀ (fuel : Nat) (row next : List Key), row.length ≤ fuel →
      rowWidth (shedF b fuel row next).1 ≤ b := by
  intro fuel
  induction fuel with
  | zero =>
    intro row next hlen
    have : row = [] := List.eq_nil_of_length_eq_zero (by omega)
    subst this
    exact Nat.zero_le b
  | succ fuel ih =>
    intro row next hlen
    by_cases hb : b < rowWidth row
    · have hne := ne_nil_of_budget_lt hb
      have hpos : 0 < row.length := List.length_pos.mpr hne
      obtain ⟨k, hk⟩ := exists_getLast?_of_ne_nil hne
      simp only [shedF, if_pos hb, hk, Option.elim]
      exact ih _ _ (by rw [List.length_dropLast]; omega)
    · simp only [shedF, if_neg hb]
      omega

theorem shed_width_le (b : Nat) (row next : List Key) :
    rowWidth (shed b row next).1 ≤ b :=
  shedF_width_le b _ row next (Nat.le_refl _)

theorem shedF_stable (b : Nat) :
    ∀ (fuel : Nat) (row next : List Key), row.length ≤ fuel →
      shedF b fuel row next = shed b row next := by
  intro fuel
  induction fuel with
  | zero =>
    intro row next hlen
    have : row = [] := List.eq_nil_of_length_eq_zero (by omega)
    subst this
    rfl
  | succ fuel ih =>
    intro row next hlen
    by_cases hb : b < rowWidth row
    · have hne := ne_nil_of_budget_lt hb
      have hpos : 0 < row.length := List.length_pos.mpr hne
      obtain ⟨k, hk⟩ := exists_getLast?_of_ne_nil hne
      have hL : row.dropLast.length ≤ fuel := by rw [List.length_dropLast]; omega
      obtain ⟨m, hm⟩ : ∃ m, row.length = m + 1 := ⟨row.length - 1, by omega⟩
      have hmL : row.dropLast.length = m := by rw [List.length_dropLast]; omega
      simp only [shedF, if_pos hb, hk, Option.elim]
      rw [ih _ _ hL]
      show shed b row.dropLast (k :: next) = shed b row next
      unfold shed
      rw [hm]
      simp only [shedF, if_pos hb, hk, Option.elim]
      rw [← hmL]
    · rw [shedF_noop _ _ (by omega)]
      unfold shed
      rw [shedF_noop _ _ (by omega)]

theorem shedF_head (b : Nat) {hk : Key} :
    ∀ (fuel : Nat) (row next : List Key), row.head? = some hk →
      hk.width ≤ b → ((shedF b fuel row next).1).head? = some hk := by
  intro fuel
  induction fuel with
  | zero => intro row next hh _; simpa [shedF] using hh
  | succ fuel ih =>
    intro row next hh hw
    by_cases hb : b < rowWidth row
    · obtain ⟨t, rfl⟩ : ∃ t, row = hk :: t := by
        cases row with
        | nil => simp at hh
        | cons x t =>
          simp only [List.head?_cons, Option.some.injEq] at hh
          exact ⟨t, by rw [hh]⟩
      have ht : t ≠ [] := by
        intro h
        subst h
        rw [rowWidth_cons, rowWidth_nil] at hb
        omega
      obtain ⟨k, hkl⟩ := exists_getLast?_of_ne_nil ht
      have hl : (hk :: t).getLast? = some k := by
        rw [getLast?_cons_of_ne_nil ht]; exact hkl
      simp only [shedF, if_pos hb, hl, Option.elim]
      apply ih
      · rw [dropLast_cons_of_ne_nil ht]
        simp
      · exact hw
    · simp only [shedF, if_neg hb]
      exact hh

theorem shed_head {b : Nat} {hk : Key} {row next : List Key}
    (hh : row.head? = some hk) (hw : hk.width ≤ b) :
    ((shed b row next).1).head? = some hk :=
  shedF_head b _ row next hh hw

theorem shed_one {b : Nat} {row : List Key} {k : Key} (next : List Key)
    (hk : row.getLast? = some k) (hb : b < rowWidth row)
    (hd : rowWidth row.dropLast ≤ b) :
    shed b row next = (row.dropLast, k :: next) := by
  have hne := ne_nil_of_getLast? hk
  have hpos : 0 < row.length := List.length_pos.mpr hne
  obtain ⟨m, hm⟩ : ∃ m, row.length = m + 1 := ⟨row.length - 1, by omega⟩
  unfold shed
  rw [hm]
  simp only [shedF, if_pos hb, hk, Option.elim]
  exact shedF_noop _ _ hd

/-! ### The variant-B reflow -/

theorem reflowB_flatten : ∀ (bs : List Nat) (rows : List (List Key)),
    (reflowB bs rows).flatten = rows.flatten := by
  intro bs
  induction bs with
  | nil =>
    intro rows
    match rows with
    | [] => rfl
    | [r] => rfl
    | r1 :: r2 :: rs => rfl
  | cons b bs ih =>
    intro rows
    match rows with
    | [] => rfl
    | [r] => rfl
    | r1 :: r2 :: rs =>
      show ((shed b r1 r2).1 :: reflowB bs ((shed b r1 r2).2 :: rs)).flatten = _
      simp only [List.flatten_cons]
      rw [ih]
      simp only [List.flatten_cons]
      rw [← List.append_assoc, ← List.append_assoc, shed_append]

theorem reflowB_length : ∀ (bs : List Nat) (rows : List (List Key)),
    (reflowB bs rows).length = rows.length := by
  intro bs
  induction bs with
  | nil =>
    intro rows
    match rows with
    | [] => rfl
    | [r] => rfl
    | r1 :: r2 :: rs => rfl
  | cons b bs ih =>
    intro rows
    match rows with
    | [] => rfl
    | [r] => rfl
    | r1 :: r2 :: rs =>
      show ((shed b r1 r2).1 :: reflowB bs ((shed b r1 r2).2 :: rs)).length = _
      simp only [List.length_cons]
      rw [ih]
      simp

theorem reflowB_within : ∀ (bs : List Nat) (rows : List (List Key)),
    bs.length = rows.length → ∀ i, i + 1 < rows.length →
      rowWidth ((reflowB bs rows).getD i []) ≤ bs.getD i 0 := by
  intro bs
  induction bs with
  | nil =>
    intro rows hlen i hi
    rw [List.length_nil] at hlen
    have : rows = [] := List.eq_nil_of_length_eq_zero (by omega)
    subst this
    simp at hi
  | cons b bs ih =>
    intro rows hlen i hi
    cases rows with
    | nil => simp at hlen
    | cons r1 rest =>
      cases rest with
      | nil => simp at hi
      | cons r2 rs =>
        show rowWidth (((shed b r1 r2).1 :: reflowB bs ((shed b r1 r2).2 :: rs)).getD i []) ≤ _
        cases i with
        | zero =>
          simpa using shed_width_le b r1 r2
        | succ j =>
          simp only [List.getD_cons_succ]
          apply ih ((shed b r1 r2).2 :: rs)
          · simp only [List.length_cons] at hlen ⊢
            omega
          · simp only [List.length_cons] at hi ⊢
            omega

theorem reflowB_noop : ∀ (bs : List Nat) (rows : List (List Key)),
    bs.length = rows.length →
    (∀ i, i + 1 < rows.length → rowWidth (rows.getD i []) ≤ bs.getD i 0) →
    reflowB bs rows = rows := by
  intro bs
  induction bs with
  | nil =>
    intro rows hlen _
    rw [List.length_nil] at hlen
    have : rows = [] := List.eq_nil_of_length_eq_zero (by omega)
    subst this
    rfl
  | cons b bs ih =>
    intro rows hlen hw
    cases rows with
    | nil => simp at hlen
    | cons r1 rest =>
      cases rest with
      | nil => rfl
      | cons r2 rs =>
        have h0 : rowWidth r1 ≤ b := by
          have := hw 0 (by simp)
          simpa using this
        show (shed b r1 r2).1 :: reflowB bs ((shed b r1 r2).2 :: rs) = r1 :: r2 :: rs
        rw [shed_noop r2 h0]
        simp only []
        congr 1
        apply ih
        · simp only [List.length_cons] at hlen ⊢
          omega
        · intro i hi
          have := hw (i + 1) (by simp only [List.length_cons] at hi ⊢; omega)
          simpa using this

/-! ### `sortKeys`-level lemmas -/

theorem sortKeysA_eq_of_pos {rows : List (List Key)} {pk : Key} {r c : Nat}
    (hpos : getKeyPos rows pk = some (r, c)) :
    sortKeysA rows pk = shiftDown (moveKeyRows rows pk r c 0 0) r := by
  unfold sortKeysA
  rw [hpos]

theorem sortKeysA_eq_of_none {rows : List (List Key)} {pk : Key}
    (hpos : getKeyPos rows pk = none) : sortKeysA rows pk = none := by
  unfold sortKeysA
  rw [hpos]

theorem sortKeysAErr_eq_of_none {rows : List (List Key)} {pk : Key}
    (hpos : getKeyPos rows pk = none) : sortKeysAErr rows pk = .error rows := by
  unfold sortKeysAErr
  rw [hpos]

theorem sortKeysB_eq_of_pos {kb : KeyboardB} {pk : Key} {r c : Nat}
    (hpos : getKeyPos kb.rows pk = some (r, c)) :
    sortKeysB kb pk =
      some ⟨reflowB kb.budgets (moveKeyRows kb.rows pk r c 0 0), kb.budgets⟩ := by
  unfold sortKeysB
  rw [hpos]

theorem sortKeysB_eq_of_none {kb : KeyboardB} {pk : Key}
    (hpos : getKeyPos kb.rows pk = none) : sortKeysB kb pk = none := by
  unfold sortKeysB
  rw [hpos]

theorem sortKeysBErr_eq_of_none {kb : KeyboardB} {pk : Key}
    (hpos : getKeyPos kb.rows pk = none) : sortKeysBErr kb pk = .error kb := by
  unfold sortKeysBErr
  rw [hpos]

theorem sortKeysA_flatten_perm {rows rows' : List (List Key)} {pk : Key}
    (h : sortKeysA rows pk = some rows') : rows'.flatten.Perm rows.flatten := by
  cases hpos : getKeyPos rows pk with
  | none => rw [sortKeysA_eq_of_none hpos] at h; simp at h
  | some rc =>
    obtain ⟨r, c⟩ := rc
    rw [sortKeysA_eq_of_pos hpos] at h
    have hperm := moveKeyRows_flatten_perm 0 0 (getKeyPos_getElem? hpos)
      (by have := getKeyPos_row_lt hpos; omega)
    rw [← shiftDown_flatten h] at hperm
    exact hperm

theorem sortKeysB_characterize {kb kb' : KeyboardB} {pk : Key}
    (h : sortKeysB kb pk = some kb') :
    kb'.budgets = kb.budgets ∧ kb'.rows.flatten.Perm kb.rows.flatten ∧
      kb'.rows.length = kb.rows.length := by
  cases hpos : getKeyPos kb.rows pk with
  | none => rw [sortKeysB_eq_of_none hpos] at h; simp at h
  | some rc =>
    obtain ⟨r, c⟩ := rc
    rw [sortKeysB_eq_of_pos hpos] at h
    injection h with h
    subst h
    refine ⟨rfl, ?_, ?_⟩
    · show (reflowB kb.budgets (moveKeyRows kb.rows pk r c 0 0)).flatten.Perm _
      rw [reflowB_flatten]
      exact moveKeyRows_flatten_perm 0 0 (getKeyPos_getElem? hpos)
        (by have := getKeyPos_row_lt hpos; omega)
    · show (reflowB kb.budgets (moveKeyRows kb.rows pk r c 0 0)).length = _
      rw [reflowB_length, moveKeyRows_length]

theorem sortKeysA_top_left {rows rows' : List (List Key)} {pk : Key} {r c : Nat}
    (hpos : getKeyPos rows pk = some (r, c)) (h0 : rows.getD 0 [] ≠ [])
    (h : sortKeysA rows pk = some rows') :
    getKeyPos rows' pk = some (0, 0) ∧ rows'.getD 0 [] ≠ [] := by
  rw [sortKeysA_eq_of_pos hpos] at h
  cases rows with
  | nil => simp [getKeyPos] at hpos
  | cons r0 rest =>
    have h0' : r0 ≠ [] := by simpa using h0
    cases r with
    | zero =>
      rw [moveKeyRows_promote_zero, shiftDown_zero] at h
      injection h with h
      subst h
      exact ⟨getKeyPos_cons_head pk _ rest, by simp⟩
    | succ n =>
      rw [moveKeyRows_promote_succ] at h
      obtain ⟨t, rest2, ht⟩ := shiftDown_cons_head h0' h
      subst ht
      exact ⟨getKeyPos_cons_head pk t rest2, by simp⟩

theorem sortKeysA_noop {rows : List (List Key)} {pk : Key}
    (hpos : getKeyPos rows pk = some (0, 0)) : sortKeysA rows pk = some rows := by
  obtain ⟨t, rest, rfl⟩ := getKeyPos_zero_zero hpos
  rw [sortKeysA_eq_of_pos (getKeyPos_cons_head pk t rest),
    moveKeyRows_promote_zero, spliceRemove_cons_zero, shiftDown_zero]

theorem reflowB_head {pk : Key} :
    ∀ (bs : List Nat) (r1 : List Key) (rest : List (List Key)),
      r1.head? = some pk → pk.width ≤ bs.getD 0 0 →
      ∃ t rest2, reflowB bs (r1 :: rest) = (pk :: t) :: rest2 := by
  intro bs r1 rest hh hw
  have head_shape : ∀ l : List Key, l.head? = some pk → ∃ t, l = pk :: t := by
    intro l hl
    cases l with
    | nil => simp at hl
    | cons x t =>
      simp only [List.head?_cons, Option.some.injEq] at hl
      exact ⟨t, by rw [hl]⟩
  cases bs with
  | nil =>
    cases rest with
    | nil =>
      obtain ⟨t, rfl⟩ := head_shape r1 hh
      exact ⟨t, [], rfl⟩
    | cons r2 rs =>
      obtain ⟨t, rfl⟩ := head_shape r1 hh
      exact ⟨t, r2 :: rs, rfl⟩
  | cons b bs' =>
    cases rest with
    | nil =>
      obtain ⟨t, rfl⟩ := head_shape r1 hh
      exact ⟨t, [], rfl⟩
    | cons r2 rs =>
      have hb : pk.width ≤ b := by simpa using hw
      have hhead : ((shed b r1 r2).1).head? = some pk := shed_head hh hb
      obtain ⟨t, ht⟩ := head_shape _ hhead
      exact ⟨t, reflowB bs' ((shed b r1 r2).2 :: rs), by
        show (shed b r1 r2).1 :: reflowB bs' ((shed b r1 r2).2 :: rs) = _
        rw [ht]⟩

theorem sortKeysB_top_left {kb kb' : KeyboardB} {pk : Key} {r c : Nat}
    (hpos : getKeyPos kb.rows pk = some (r, c))
    (hw : pk.width ≤ kb.budgets.getD 0 0)
    (h : sortKeysB kb pk = some kb') : getKeyPos kb'.rows pk = some (0, 0) := by
  rw [sortKeysB_eq_of_pos hpos] at h
  injection h with h
  subst h
  show getKeyPos (reflowB kb.budgets (moveKeyRows kb.rows pk r c 0 0)) pk = some (0, 0)
  cases hrows : kb.rows with
  | nil => rw [hrows] at hpos; simp [getKeyPos] at hpos
  | cons r0 rest =>
    cases r with
    | zero =>
      rw [moveKeyRows_promote_zero]
      obtain ⟨t, rest2, heq⟩ := reflowB_head kb.budgets (pk :: spliceRemove r0 c)
        rest (by simp) hw
      rw [heq]
      exact getKeyPos_cons_head pk t rest2
    | succ n =>
      rw [moveKeyRows_promote_succ]
      obtain ⟨t, rest2, heq⟩ := reflowB_head kb.budgets (pk :: r0) _ (by simp) hw
      rw [heq]
      exact getKeyPos_cons_head pk t rest2

theorem sortKeysB_noop {kb : KeyboardB} {pk : Key}
    (hpos : getKeyPos kb.rows pk = some (0, 0))
    (hlen : kb.budgets.length = kb.rows.length)
    (hwithin : ∀ i, i + 1 < kb.rows.length →
      rowWidth (kb.rows.getD i []) ≤ kb.budgets.getD i 0) :
    sortKeysB kb pk = some kb := by
  obtain ⟨t, rest, hrows⟩ := getKeyPos_zero_zero hpos
  rw [sortKeysB_eq_of_pos hpos]
  have hpromo : moveKeyRows kb.rows pk 0 0 0 0 = kb.rows := by
    rw [hrows, moveKeyRows_promote_zero, spliceRemove_cons_zero]
  rw [hpromo, reflowB_noop _ _ hlen hwithin]

theorem getD_map_rowWidth : ∀ (rows : List (List Key)) (i : Nat),
    i < rows.length → (rows.map rowWidth).getD i 0 = rowWidth (rows.getD i []) := by
  intro rows
  induction rows with
  | nil => intro i hi; simp at hi
  | cons r rs ih =>
    intro i hi
    cases i with
    | zero => rfl
    | succ j =>
      simp only [List.map_cons, List.getD_cons_succ]
      exact ih j (by simp only [List.length_cons] at hi; omega)

/-!
## Invariants of the reachable states
-/

theorem reachableA_inv {rows : List (List Key)} (h : ReachableA rows) :
    rows.getD 0 [] ≠ [] ∧ rows.flatten.Perm initialA.flatten := by
  induction h with
  | init => exact ⟨by decide, List.Perm.refl _⟩
  | step h1 h2 ih =>
    rename_i rows0 rows1 pk0
    obtain ⟨ih0, ihp⟩ := ih
    cases hpos : getKeyPos rows0 pk0 with
    | none => rw [sortKeysA_eq_of_none hpos] at h2; simp at h2
    | some rc =>
      obtain ⟨r, c⟩ := rc
      obtain ⟨htop, hne⟩ := sortKeysA_top_left hpos ih0 h2
      exact ⟨hne, (sortKeysA_flatten_perm h2).trans ihp⟩

theorem reachableB_inv {kb : KeyboardB} (h : ReachableB kb) :
    kb.budgets = initialB.budgets ∧ kb.budgets.length = kb.rows.length ∧
      kb.rows.flatten.Perm initialB.rows.flatten ∧
      (∀ i, i + 1 < kb.rows.length →
        rowWidth (kb.rows.getD i []) ≤ kb.budgets.getD i 0) := by
  induction h with
  | init =>
    refine ⟨rfl, ?_, List.Perm.refl _, ?_⟩
    · show (initialRowsB.map rowWidth).length = initialRowsB.length
      rw [List.length_map]
    · intro i hi
      have hlen : (initialB.rows).length = initialRowsB.length := rfl
      have hlt : i < initialRowsB.length := by rw [hlen] at hi; omega
      show rowWidth (initialRowsB.getD i []) ≤ (initialRowsB.map rowWidth).getD i 0
      rw [getD_map_rowWidth _ _ hlt]
  | step h1 h2 ih =>
    rename_i kb0 kb1 pk0
    obtain ⟨ib, il, ip, iw⟩ := ih
    obtain ⟨hb, hp, hl⟩ := sortKeysB_characterize h2
    refine ⟨hb.trans ib, by rw [hb, hl]; exact il, hp.trans ip, ?_⟩
    intro i hi
    cases hpos : getKeyPos kb0.rows pk0 with
    | none => rw [sortKeysB_eq_of_none hpos] at h2; simp at h2
    | some rc =>
      obtain ⟨r, c⟩ := rc
      rw [sortKeysB_eq_of_pos hpos] at h2
      injection h2 with h2
      subst h2
      show rowWidth ((reflowB kb0.budgets
        (moveKeyRows kb0.rows pk0 r c 0 0)).getD i []) ≤ kb0.budgets.getD i 0
      apply reflowB_within
      · rw [moveKeyRows_length]; exact il
      · rw [hl] at hi
        rw [moveKeyRows_length]
        exact hi

/-!
## The row-count loop as a sequence of `moveKey` calls
-/

theorem modifyIdx_append : ∀ (pre l : List α) (j : Nat) (f : α → α),
    modifyIdx (pre ++ l) (pre.length + j) f = pre ++ modifyIdx l j f := by
  intro pre
  induction pre with
  | nil => intro l j f; simp
  | cons x pre ih =>
    intro l j f
    show modifyIdx (x :: (pre ++ l)) (pre.length + 1 + j) f = x :: (pre ++ modifyIdx l j f)
    rw [show pre.length + 1 + j = pre.length + j + 1 by omega]
    show x :: modifyIdx (pre ++ l) (pre.length + j) f = _
    rw [ih]

theorem getD_append_self : ∀ (pre : List (List Key)) (x : List Key)
    (l : List (List Key)), (pre ++ x :: l).getD pre.length [] = x := by
  intro pre
  induction pre with
  | nil => intro x l; rfl
  | cons y pre ih =>
    intro x l
    show (y :: (pre ++ x :: l)).getD (pre.length + 1) [] = x
    rw [List.getD_cons_succ, ih]

theorem moveKeyRows_shed_step {pre : List (List Key)} {r1 r2 : List Key}
    {rs : List (List Key)} {k : Key} (hk : r1.getLast? = some k) :
    moveKeyRows (pre ++ r1 :: r2 :: rs) k pre.length (r1.length - 1)
      (pre.length + 1) 0 = pre ++ r1.dropLast :: (k :: r2) :: rs := by
  unfold moveKeyRows
  have h1 : modifyIdx (pre ++ r1 :: r2 :: rs) pre.length
      (fun r => spliceRemove r (r1.length - 1)) = pre ++ r1.dropLast :: r2 :: rs := by
    have h0 := modifyIdx_append pre (r1 :: r2 :: rs) 0
      (fun r => spliceRemove r (r1.length - 1))
    rw [Nat.add_zero] at h0
    rw [h0]
    show pre ++ (spliceRemove r1 (r1.length - 1) :: r2 :: rs) = _
    rw [spliceRemove_last hk]
  rw [h1]
  rw [modifyIdx_append pre (r1.dropLast :: r2 :: rs) 1 (fun r => spliceInsert r 0 k)]
  show pre ++ (r1.dropLast :: spliceInsert r2 0 k :: rs) = _
  rw [spliceInsert_zero]

theorem shedSteps_of_shiftDown : ∀ (n : Nat) (st st' pre : List (List Key)),
    shiftDown st n = some st' → ShedSteps (pre ++ st) pre.length n (pre ++ st') := by
  intro n
  induction n with
  | zero =>
    intro st st' pre h
    rw [shiftDown_zero] at h
    injection h with h
    subst h
    exact ShedSteps.nil _ _
  | succ n ih =>
    intro st st' pre h
    match st with
    | [] => simp [shiftDown] at h
    | [r] => simp [shiftDown] at h
    | r1 :: r2 :: rs =>
      rw [shiftDown_cons_cons] at h
      cases hl : r1.getLast? with
      | none => rw [hl] at h; simp at h
      | some k =>
        rw [hl, Option.some_bind] at h
        cases hs : shiftDown ((k :: r2) :: rs) n with
        | none => rw [hs] at h; simp at h
        | some inner =>
          rw [hs] at h
          simp only [Option.map_some', Option.some.injEq] at h
          subst h
          refine ShedSteps.cons (k := k) ?_ ?_
          · rw [getD_append_self]; exact hl
          · rw [getD_append_self, moveKeyRows_shed_step hl]
            have happ := ih ((k :: r2) :: rs) inner (pre ++ [r1.dropLast]) hs
            simpa [List.append_assoc] using happ

theorem shiftDown_isSome_of_shedSteps : ∀ (n : Nat) (st pre Y : List (List Key)),
    ShedSteps (pre ++ st) pre.length n Y → n < st.length →
    (shiftDown st n).isSome := by
  intro n
  induction n with
  | zero =>
    intro st pre Y h hn
    rw [shiftDown_zero]
    rfl
  | succ n ih =>
    intro st pre Y h hn
    match st with
    | [] => simp at hn
    | [r] => simp at hn
    | r1 :: r2 :: rs =>
      cases h with
      | cons hk hsteps =>
        rename_i k
        rw [getD_append_self] at hk hsteps
        rw [moveKeyRows_shed_step hk] at hsteps
        have hre : pre ++ r1.dropLast :: (k :: r2) :: rs =
            (pre ++ [r1.dropLast]) ++ (k :: r2) :: rs := by simp
        have hlen2 : pre.length + 1 = (pre ++ [r1.dropLast]).length := by simp
        rw [hre, hlen2] at hsteps
        have hin := ih ((k :: r2) :: rs) (pre ++ [r1.dropLast]) Y hsteps
          (by simp only [List.length_cons] at hn ⊢; omega)
        rw [shiftDown_cons_cons, hk, Option.some_bind]
        cases hs : shiftDown ((k :: r2) :: rs) n with
        | none => rw [hs] at hin; simp at hin
        | some inner => simp

theorem shedSteps_deterministic : ∀ {n : Nat} {st : List (List Key)} {i : Nat}
    {st1 st2 : List (List Key)},
    ShedSteps st i n st1 → ShedSteps st i n st2 → st1 = st2 := by
  intro n
  induction n with
  | zero =>
    intro st i st1 st2 h1 h2
    cases h1
    cases h2
    rfl
  | succ n ih =>
    intro st i st1 st2 h1 h2
    cases h1 with
    | cons hk1 hs1 =>
      rename_i k1
      cases h2 with
      | cons hk2 hs2 =>
        rename_i k2
        rw [hk1] at hk2
        injection hk2 with hkk
        subst hkk
        exact ih hs1 hs2

/-!
## Equal-width layouts: the two reflow policies agree
-/

theorem mem_of_getLast? {l : List α} {k : α} (h : l.getLast? = some k) :
    k ∈ l := by
  have := dropLast_append_of_getLast? h
  rw [← this]
  simp

theorem budget_rowCount_aux (w : Nat) (hw : 0 < w) :
    ∀ (n : Nat) (st : List (List Key)) (bs : List Nat),
      (∀ k ∈ st.flatten, k.width = w) →
      bs.length = st.length →
      n < st.length →
      (∀ i, i < st.length →
        rowWidth (st.getD i []) + (if i = n ∧ 0 < n then w else 0) =
          bs.getD i 0 + (if i = 0 ∧ 0 < n then w else 0)) →
      shiftDown st n = some (reflowB bs st) := by
  intro n
  induction n with
  | zero =>
    intro st bs hall hlen hn hidx
    rw [shiftDown_zero, reflowB_noop bs st hlen ?_]
    intro i hi
    have := hidx i (by omega)
    simp only [Nat.lt_irrefl, and_false, if_false, Nat.add_zero] at this
    omega
  | succ n ih =>
    intro st bs hall hlen hn hidx
    cases st with
    | nil => simp at hn
    | cons s0 rest =>
      cases rest with
      | nil => simp at hn
      | cons s1 rs =>
        cases bs with
        | nil => simp at hlen
        | cons b0 bs' =>
          have h0 : rowWidth s0 = b0 + w := by
            have h := hidx 0 (by simp)
            have h01 : ¬ ((0 : Nat) = n + 1 ∧ 0 < n + 1) := by omega
            have h02 : ((0 : Nat) = 0 ∧ 0 < n + 1) := by omega
            rw [List.getD_cons_zero, List.getD_cons_zero, if_neg h01, if_pos h02] at h
            omega
          have hne : s0 ≠ [] := by
            intro h
            rw [h, rowWidth_nil] at h0
            omega
          obtain ⟨k, hk⟩ := exists_getLast?_of_ne_nil hne
          have hkw : k.width = w := by
            apply hall
            rw [List.flatten_cons, List.mem_append]
            exact Or.inl (mem_of_getLast? hk)
          have hdrop : rowWidth s0.dropLast = b0 := by
            have := rowWidth_of_getLast? hk
            rw [hkw] at this
            omega
          have hshed : shed b0 s0 s1 = (s0.dropLast, k :: s1) :=
            shed_one s1 hk (by omega) (by omega)
          have hallin : ∀ k' ∈ ((k :: s1) :: rs).flatten, k'.width = w := by
            intro k' hmem
            simp only [List.flatten_cons, List.mem_append, List.mem_cons] at hmem
            rcases hmem with (rfl | hmem) | hmem
            · exact hkw
            · exact hall k' (by
                simp only [List.flatten_cons, List.mem_append]
                tauto)
            · exact hall k' (by
                simp only [List.flatten_cons, List.mem_append]
                tauto)
          have hlen' : bs'.length = ((k :: s1) :: rs).length := by
            simp only [List.length_cons] at hlen ⊢
            omega
          have hn' : n < ((k :: s1) :: rs).length := by
            simp only [List.length_cons] at hn ⊢
            omega
          have hidx' : ∀ i, i < ((k :: s1) :: rs).length →
              rowWidth (((k :: s1) :: rs).getD i []) +
                  (if i = n ∧ 0 < n then w else 0) =
                bs'.getD i 0 + (if i = 0 ∧ 0 < n then w else 0) := by
            intro i hi
            cases i with
            | zero =>
              have h1 : rowWidth s1 + (if 1 = n + 1 ∧ 0 < n + 1 then w else 0) =
                  bs'.getD 0 0 + (if 1 = 0 ∧ 0 < n + 1 then w else 0) :=
                hidx 1 (by simp only [List.length_cons]; omega)
              rw [if_neg (show ¬ ((1 : Nat) = 0 ∧ 0 < n + 1) by omega)] at h1
              show rowWidth (k :: s1) + (if (0 : Nat) = n ∧ 0 < n then w else 0) =
                bs'.getD 0 0 + (if (0 : Nat) = 0 ∧ 0 < n then w else 0)
              rw [rowWidth_cons, hkw,
                if_neg (show ¬ ((0 : Nat) = n ∧ 0 < n) by omega)]
              by_cases hn0 : 0 < n
              · rw [if_pos (show (0 : Nat) = 0 ∧ 0 < n from ⟨rfl, hn0⟩)]
                rw [if_neg (show ¬ ((1 : Nat) = n + 1 ∧ 0 < n + 1) by omega)] at h1
                omega
              · rw [if_neg (show ¬ ((0 : Nat) = 0 ∧ 0 < n) from fun hc => hn0 hc.2)]
                rw [if_pos (show (1 : Nat) = n + 1 ∧ 0 < n + 1 by omega)] at h1
                omega
            | succ j =>
              have h2 : rowWidth (rs.getD j []) +
                  (if j + 2 = n + 1 ∧ 0 < n + 1 then w else 0) =
                  bs'.getD (j + 1) 0 + (if j + 2 = 0 ∧ 0 < n + 1 then w else 0) :=
                hidx (j + 2) (by simp only [List.length_cons] at hi ⊢; omega)
              rw [if_neg (show ¬ (j + 2 = 0 ∧ 0 < n + 1) by omega)] at h2
              show rowWidth (rs.getD j []) + (if j + 1 = n ∧ 0 < n then w else 0) =
                bs'.getD (j + 1) 0 + (if j + 1 = 0 ∧ 0 < n then w else 0)
              rw [if_neg (show ¬ (j + 1 = 0 ∧ 0 < n) by omega)]
              by_cases hj : j + 1 = n ∧ 0 < n
              · rw [if_pos hj]
                rw [if_pos (show j + 2 = n + 1 ∧ 0 < n + 1 by omega)] at h2
                omega
              · rw [if_neg hj]
                rw [if_neg (show ¬ (j + 2 = n + 1 ∧ 0 < n + 1) by omega)] at h2
                omega
          have hinner := ih ((k :: s1) :: rs) bs' hallin hlen' hn' hidx'
          rw [shiftDown_cons_cons, hk, Option.some_bind, hinner]
          show some _ = some ((shed b0 s0 s1).1 :: reflowB bs' ((shed b0 s0 s1).2 :: rs))
          rw [hshed]

theorem equalWidth_agree {rows : List (List Key)} {pk : Key} {r c : Nat} {w : Nat}
    (hw : 0 < w) (hall : ∀ k ∈ rows.flatten, k.width = w)
    (hpos : getKeyPos rows pk = some (r, c)) :
    shiftDown (moveKeyRows rows pk r c 0 0) r =
      some (reflowB (rows.map rowWidth) (moveKeyRows rows pk r c 0 0)) := by
  apply budget_rowCount_aux w hw
  · intro k hk
    exact hall k ((moveKeyRows_flatten_perm 0 0 (getKeyPos_getElem? hpos)
      (by have := getKeyPos_row_lt hpos; omega)).mem_iff.mp hk)
  · rw [List.length_map, moveKeyRows_length]
  · rw [moveKeyRows_length]
    exact getKeyPos_row_lt hpos
  · intro i hi
    rw [moveKeyRows_length] at hi
    rw [getD_map_rowWidth rows i hi]
    have hcol := getKeyPos_getElem? hpos
    cases rows with
    | nil => simp at hi
    | cons r0 rest =>
      cases r with
      | zero =>
        rw [moveKeyRows_promote_zero]
        cases i with
        | zero =>
          show rowWidth (pk :: spliceRemove r0 c) + 0 = rowWidth r0 + 0
          rw [rowWidth_cons]
          have hcol' : r0[c]? = some pk := hcol
          have hsp := rowWidth_spliceRemove hcol'
          omega
        | succ j => rfl
      | succ m =>
        rw [moveKeyRows_promote_succ]
        have hpkw : pk.width = w := hall pk (getKeyPos_mem hpos)
        cases i with
        | zero =>
          rw [if_neg (show ¬ ((0 : Nat) = m + 1 ∧ 0 < m + 1) by omega),
            if_pos (show (0 : Nat) = 0 ∧ 0 < m + 1 by omega)]
          show rowWidth (pk :: r0) + 0 = rowWidth r0 + w
          rw [rowWidth_cons, hpkw]
          omega
        | succ j =>
          show rowWidth ((modifyIdx rest m (fun row => spliceRemove row c)).getD j []) +
              (if j + 1 = m + 1 ∧ 0 < m + 1 then w else 0) =
            rowWidth (rest.getD j []) + (if j + 1 = 0 ∧ 0 < m + 1 then w else 0)
          rw [if_neg (show ¬ (j + 1 = 0 ∧ 0 < m + 1) by omega)]
          by_cases hjm : j = m
          · subst hjm
            rw [if_pos (show j + 1 = j + 1 ∧ 0 < j + 1 by omega)]
            have hjlt : j < rest.length := by
              simp only [List.length_cons] at hi
              omega
            rw [modifyIdx_getD_eq _ _ hjlt]
            have hcol' : (rest.getD j [])[c]? = some pk := hcol
            have hsp := rowWidth_spliceRemove hcol'
            rw [hpkw] at hsp
            omega
          · rw [if_neg (show ¬ (j + 1 = m + 1 ∧ 0 < m + 1) by omega),
              modifyIdx_getD_ne _ _ (show m ≠ j from fun hc => hjm hc.symm)]

theorem sortKeysB_isSome_iff (kb : KeyboardB) (pk : Key) :
    (sortKeysB kb pk).isSome ↔ (getKeyPos kb.rows pk).isSome := by
  cases hpos : getKeyPos kb.rows pk with
  | none => rw [sortKeysB_eq_of_none hpos]; simp
  | some rc =>
    obtain ⟨r, c⟩ := rc
    rw [sortKeysB_eq_of_pos hpos]
    simp

/-!
## The claims
-/

/-- C1: for every press of a key present in the layout (in any reachable
state of either variant), after `sortKeys(pressedKey)` completes
successfully, `locate(pressedKey)` — `getKeyPos` — returns `(0, 0)`: the
most-recently-pressed key is promoted to the top-left slot regardless of its
prior row. -/
theorem sortKeys_top_left_promotion :
    (∀ rows, ReachableA rows → ∀ (pk : Key) (r c : Nat)
      (rows' : List (List Key)), getKeyPos rows pk = some (r, c) →
      sortKeysA rows pk = some rows' → getKeyPos rows' pk = some (0, 0)) ∧
    (∀ kb, ReachableB kb → ∀ (pk : Key) (r c : Nat) (kb' : KeyboardB),
      getKeyPos kb.rows pk = some (r, c) →
      sortKeysB kb pk = some kb' → getKeyPos kb'.rows pk = some (0, 0)) := by
  constructor
  · intro rows hr pk r c rows' hpos hsort
    exact (sortKeysA_top_left hpos (reachableA_inv hr).1 hsort).1
  · intro kb hr pk r c kb' hpos hsort
    obtain ⟨hbud, hlen, hperm, hwithin⟩ := reachableB_inv hr
    apply sortKeysB_top_left hpos ?_ hsort
    have hmem : pk ∈ initialB.rows.flatten := hperm.mem_iff.mp (getKeyPos_mem hpos)
    have hwle : pk.width ≤ 200 := by
      have hall : ∀ k ∈ initialB.rows.flatten, k.width ≤ 200 := by decide
      exact hall pk hmem
    have hb0 : kb.budgets.getD 0 0 = 600 := by
      rw [hbud]
      decide
    omega

theorem sortKeys_top_left_promotion_witness :
    getKeyPos ((sortKeysA initialA ⟨'a', 50⟩).getD []) ⟨'a', 50⟩ = some (0, 0) ∧
    getKeyPos ((sortKeysB initialB ⟨'a', 50⟩).getD initialB).rows ⟨'a', 50⟩ =
      some (0, 0) :=
  ⟨sortKeys_top_left_promotion.1 initialA ReachableA.init ⟨'a', 50⟩ 1 0 _
      (by decide) (by decide),
    sortKeys_top_left_promotion.2 initialB ReachableB.init ⟨'a', 50⟩ 1 0 _
      (by decide) (by decide)⟩

/-- C2: the engine operations preserve the partition invariant. `moveKey`,
called with a `(fromRow, fromCol)` that identifies the key's position and an
in-range target row, permutes the multiset of keys; a successful `sortKeys`
of either variant permutes it as well (so it neither creates nor destroys
keys, and preserves freedom from duplicates); and every reachable layout
carries exactly the constructor's keys with no duplicates, i.e. every key
is in exactly one row at exactly one column. -/
theorem partition_invariant :
    (∀ (rows : List (List Key)) (key : Key) (fr fc tr tc : Nat),
      (rows.getD fr [])[fc]? = some key → tr < rows.length →
      (moveKeyRows rows key fr fc tr tc).flatten.Perm rows.flatten) ∧
    (∀ (rows : List (List Key)) (pk : Key) (rows' : List (List Key)),
      sortKeysA rows pk = some rows' →
      rows'.flatten.Perm rows.flatten ∧
        (rows.flatten.Nodup → rows'.flatten.Nodup)) ∧
    (∀ (kb : KeyboardB) (pk : Key) (kb' : KeyboardB),
      sortKeysB kb pk = some kb' →
      kb'.rows.flatten.Perm kb.rows.flatten ∧
        (kb.rows.flatten.Nodup → kb'.rows.flatten.Nodup)) ∧
    (∀ rows, ReachableA rows →
      rows.flatten.Perm initialA.flatten ∧ rows.flatten.Nodup) ∧
    (∀ kb, ReachableB kb →
      kb.rows.flatten.Perm initialB.rows.flatten ∧ kb.rows.flatten.Nodup) := by
  have hndA : initialA.flatten.Nodup := by decide
  have hndB : initialB.rows.flatten.Nodup := by decide
  refine ⟨fun rows key fr fc tr tc h1 h2 => moveKeyRows_flatten_perm tr tc h1 h2,
    fun rows pk rows' h => ⟨sortKeysA_flatten_perm h,
      fun hnd => ((sortKeysA_flatten_perm h).nodup_iff).mpr hnd⟩,
    fun kb pk kb' h => ⟨(sortKeysB_characterize h).2.1,
      fun hnd => ((sortKeysB_characterize h).2.1.nodup_iff).mpr hnd⟩,
    fun rows hr => ⟨(reachableA_inv hr).2,
      ((reachableA_inv hr).2.nodup_iff).mpr hndA⟩,
    fun kb hr => ⟨(reachableB_inv hr).2.2.1,
      ((reachableB_inv hr).2.2.1.nodup_iff).mpr hndB⟩⟩

theorem partition_invariant_witness :
    (moveKeyRows [[⟨'a', 50⟩], [⟨'b', 50⟩]] ⟨'a', 50⟩ 0 0 1 0).flatten.Perm
      ([[⟨'a', 50⟩], [⟨'b', 50⟩]] : List (List Key)).flatten ∧
    ((sortKeysA initialA ⟨'m', 50⟩).getD []).flatten.Perm initialA.flatten :=
  ⟨partition_invariant.1 [[⟨'a', 50⟩], [⟨'b', 50⟩]] ⟨'a', 50⟩ 0 0 1 0
      (by decide) (by decide),
    (partition_invariant.2.1 initialA ⟨'m', 50⟩ _ (by decide)).1⟩

/-- C3 counterexample: in the width-budget variant, a layout whose row 0
consists of the single key `'a'` of width 50 with budget 40 (a single key
wider than its budget) does not end with "exactly one key remaining": after
`sortKeys` on that key completes, row 0 holds zero keys — the over-wide key
is shed into the row below. -/
theorem widthBudget_degenerate_cex :
    (sortKeysB ⟨[[⟨'a', 50⟩], [⟨'b', 50⟩]], [40, 90]⟩ ⟨'a', 50⟩).map
        (fun kb => (kb.rows.getD 0 []).length) = some 0 ∧
    40 < rowWidth [(⟨'a', 50⟩ : Key)] ∧
    sortKeysB ⟨[[⟨'a', 50⟩], [⟨'b', 50⟩]], [40, 90]⟩ ⟨'a', 50⟩ =
      some ⟨[[], [⟨'a', 50⟩, ⟨'b', 50⟩]], [40, 90]⟩ := by decide

/-- C3 (amended): in the width-budget variant, after `sortKeys` completes,
every row except the last satisfies `currentWidth() ≤ defaultRowWidth`, with
no exception; in the degenerate case of a row holding a single key wider
than its budget, the while loop still terminates — after one iteration that
sheds the key into the row below — leaving the row empty (zero keys, not
one). -/
theorem widthBudget_convergence_amended :
    (∀ (kb : KeyboardB) (pk : Key) (kb' : KeyboardB),
      kb.budgets.length = kb.rows.length → sortKeysB kb pk = some kb' →
      ∀ i, i + 1 < kb'.rows.length →
        rowWidth (kb'.rows.getD i []) ≤ kb'.budgets.getD i 0) ∧
    (∀ (b : Nat) (k : Key) (next : List Key), b < k.width →
      shed b [k] next = ([], k :: next)) := by
  constructor
  · intro kb pk kb' hlen h i hi
    cases hpos : getKeyPos kb.rows pk with
    | none => rw [sortKeysB_eq_of_none hpos] at h; simp at h
    | some rc =>
      obtain ⟨r, c⟩ := rc
      rw [sortKeysB_eq_of_pos hpos] at h
      injection h with h
      subst h
      apply reflowB_within
      · rw [moveKeyRows_length]
        exact hlen
      · have hi' : i + 1 <
            (reflowB kb.budgets (moveKeyRows kb.rows pk r c 0 0)).length := hi
        rw [reflowB_length, moveKeyRows_length] at hi'
        rw [moveKeyRows_length]
        exact hi' 
  · intro b k next hb
    have hwk : b < rowWidth [k] := by rw [rowWidth_cons, rowWidth_nil]; omega
    show shedF b 1 [k] next = ([], k :: next)
    simp only [shedF, if_pos hwk, List.getLast?_singleton, Option.elim,
      List.dropLast_single]

theorem widthBudget_convergence_amended_witness :
    rowWidth ((((sortKeysB initialB ⟨'m', 50⟩).getD initialB).rows).getD 0 []) ≤
      (((sortKeysB initialB ⟨'m', 50⟩).getD initialB).budgets).getD 0 0 ∧
    shed 40 [⟨'a', 50⟩] [] = ([], [⟨'a', 50⟩]) :=
  ⟨widthBudget_convergence_amended.1 initialB ⟨'m', 50⟩ _ (by decide) (by decide)
      0 (by decide),
    widthBudget_convergence_amended.2 40 ⟨'a', 50⟩ [] (by decide)⟩

/-- C4 counterexample: in the 3-row variant, row 0's last key is the
width-80 backspace `'←'` appended after `'p'`, so pressing `'m'` sheds the
backspace, not `'p'`: afterwards `locate("p") = (0, 10)`, not `(1, 0)` as
the claim states. -/
theorem scenario_press_m_cex :
    getKeyPos initialA ⟨'m', 50⟩ = some (2, 6) ∧
    (sortKeysA initialA ⟨'m', 50⟩).map (fun rs => getKeyPos rs ⟨'p', 50⟩) =
      some (some (0, 10)) ∧
    (sortKeysA initialA ⟨'m', 50⟩).map (fun rs => getKeyPos rs ⟨'p', 50⟩) ≠
      some (some (1, 0)) := by decide

/-- C4 (amended): pressing `'m'` (at row 2, col 6) in the 3-row layout
relocates `'m'` to `(0, 0)`; the key shed from row 0 into row 1 is row 0's
actual last key, the backspace `'←'`, which lands at `(1, 0)` (and row 1's
last key `'↵'` lands at `(2, 0)`), while `'p'` stays in row 0 at `(0, 10)`;
all other keys keep their relative order, as the full resulting layout
shows. -/
theorem scenario_press_m_amended :
    sortKeysA initialA ⟨'m', 50⟩ = some
      [⟨'m', 50⟩ :: letterKeys "qwertyuiop",
       ⟨'←', 80⟩ :: letterKeys "asdfghjkl",
       ⟨'↵', 60⟩ :: letterKeys "zxcvbn"] ∧
    (sortKeysA initialA ⟨'m', 50⟩).map (fun rs => getKeyPos rs ⟨'m', 50⟩) =
      some (some (0, 0)) ∧
    (sortKeysA initialA ⟨'m', 50⟩).map (fun rs => getKeyPos rs ⟨'←', 80⟩) =
      some (some (1, 0)) ∧
    (sortKeysA initialA ⟨'m', 50⟩).map (fun rs => getKeyPos rs ⟨'↵', 60⟩) =
      some (some (2, 0)) ∧
    (sortKeysA initialA ⟨'m', 50⟩).map (fun rs => getKeyPos rs ⟨'p', 50⟩) =
      some (some (0, 10)) := by decide

/-- C5: in every reachable layout of either variant, pressing the key
currently located at `(0, 0)` leaves the entire layout unchanged —
`sortKeys` returns exactly the input layout, so the key still locates to
`(0, 0)` and every other key keeps its row and column. -/
theorem repress_top_left_noop :
    (∀ rows, ReachableA rows → ∀ pk : Key, getKeyPos rows pk = some (0, 0) →
      sortKeysA rows pk = some rows) ∧
    (∀ kb, ReachableB kb → ∀ pk : Key, getKeyPos kb.rows pk = some (0, 0) →
      sortKeysB kb pk = some kb) := by
  constructor
  · intro rows _ pk hpos
    exact sortKeysA_noop hpos
  · intro kb hr pk hpos
    obtain ⟨hbud, hlen, hperm, hwithin⟩ := reachableB_inv hr
    exact sortKeysB_noop hpos hlen hwithin

theorem repress_top_left_noop_witness :
    sortKeysA initialA ⟨'q', 50⟩ = some initialA ∧
    sortKeysB initialB ⟨'q', 50⟩ = some initialB :=
  ⟨repress_top_left_noop.1 initialA ReachableA.init ⟨'q', 50⟩ (by decide),
    repress_top_left_noop.2 initialB ReachableB.init ⟨'q', 50⟩ (by decide)⟩

/-- C6: in the row-count variant, after promoting the pressed key to
`(0, 0)`, `sortKeys` performs exactly `oldRow` `moveKey` calls: for each row
`i` strictly above the pressed key's old row, in top-to-bottom order, it
moves that row's current last key into column 0 of row `i + 1`, exactly once
per row — `sortKeys` succeeds with result `rows'` precisely when that
sequence of moves (`ShedSteps`, whose step is literally
`moveKey(lastKey, i, len - 1, i + 1, 0)`) carries the promoted layout to
`rows'`. -/
theorem rowCount_reflow_moves :
    ∀ (rows : List (List Key)) (pk : Key) (r c : Nat),
      getKeyPos rows pk = some (r, c) →
      ∀ rows' : List (List Key),
        (sortKeysA rows pk = some rows' ↔
          ShedSteps (moveKeyRows rows pk r c 0 0) 0 r rows') := by
  intro rows pk r c hpos rows'
  rw [sortKeysA_eq_of_pos hpos]
  constructor
  · intro h
    exact shedSteps_of_shiftDown r _ _ [] h
  · intro h
    have hlen : r < (moveKeyRows rows pk r c 0 0).length := by
      rw [moveKeyRows_length]
      exact getKeyPos_row_lt hpos
    have hsome := shiftDown_isSome_of_shedSteps r (moveKeyRows rows pk r c 0 0)
      [] rows' h hlen
    cases hs : shiftDown (moveKeyRows rows pk r c 0 0) r with
    | none => rw [hs] at hsome; simp at hsome
    | some st2 =>
      have hsteps : ShedSteps (moveKeyRows rows pk r c 0 0) 0 r st2 :=
        shedSteps_of_shiftDown r _ _ [] hs
      exact congrArg some (shedSteps_deterministic hsteps h)

theorem rowCount_reflow_moves_witness :
    ShedSteps (moveKeyRows initialA ⟨'m', 50⟩ 2 6 0 0) 0 2
      [⟨'m', 50⟩ :: letterKeys "qwertyuiop",
       ⟨'←', 80⟩ :: letterKeys "asdfghjkl",
       ⟨'↵', 60⟩ :: letterKeys "zxcvbn"] :=
  (rowCount_reflow_moves initialA ⟨'m', 50⟩ 2 6 (by decide) _).mp (by decide)

/-- C7: both reflow policies terminate, so `sortKeys` is a total function.
With positive key widths each width-budget iteration strictly decreases the
source row's width (it removes the row's last key); the loop needs at most
`row.length` iterations — extra fuel never changes the result — and always
ends with the row within budget (or exhausted, whose width `0` is within any
budget); `sortKeys` of the width-budget variant succeeds exactly when the
lookup does; and the row-count loop performs exactly `oldRow` moves by
construction. -/
theorem reflow_terminates :
    (∀ (b : Nat) (row : List Key), (∀ k ∈ row, 0 < k.width) →
      b < rowWidth row → rowWidth row.dropLast < rowWidth row) ∧
    (∀ (b : Nat) (row next : List Key) (extra : Nat),
      shedF b (row.length + extra) row next = shed b row next) ∧
    (∀ (b : Nat) (row next : List Key), rowWidth (shed b row next).1 ≤ b) ∧
    (∀ (kb : KeyboardB) (pk : Key),
      (sortKeysB kb pk).isSome ↔ (getKeyPos kb.rows pk).isSome) ∧
    (∀ (rows : List (List Key)) (pk : Key) (r c : Nat)
      (rows' : List (List Key)), getKeyPos rows pk = some (r, c) →
      sortKeysA rows pk = some rows' →
      ShedSteps (moveKeyRows rows pk r c 0 0) 0 r rows') := by
  refine ⟨?_, ?_, shed_width_le, sortKeysB_isSome_iff, ?_⟩
  · intro b row hall hb
    have hne := ne_nil_of_budget_lt hb
    obtain ⟨k, hk⟩ := exists_getLast?_of_ne_nil hne
    have hkpos : 0 < k.width := hall k (mem_of_getLast? hk)
    have := rowWidth_of_getLast? hk
    omega
  · intro b row next extra
    exact shedF_stable b (row.length + extra) row next (by omega)
  · intro rows pk r c rows' hpos hsort
    rw [sortKeysA_eq_of_pos hpos] at hsort
    exact shedSteps_of_shiftDown r _ _ [] hsort

theorem reflow_terminates_witness :
    rowWidth ([⟨'a', 50⟩] : List Key).dropLast < rowWidth [⟨'a', 50⟩] ∧
    shedF 40 (([⟨'a', 50⟩] : List Key).length + 3) [⟨'a', 50⟩] [] =
      shed 40 [⟨'a', 50⟩] [] ∧
    rowWidth (shed 40 [⟨'a', 50⟩] []).1 ≤ 40 ∧
    ((sortKeysB initialB ⟨'q', 50⟩).isSome ↔
      (getKeyPos initialB.rows ⟨'q', 50⟩).isSome) ∧
    ShedSteps (moveKeyRows initialA ⟨'m', 50⟩ 2 6 0 0) 0 2
      ((sortKeysA initialA ⟨'m', 50⟩).getD []) :=
  ⟨reflow_terminates.1 40 [⟨'a', 50⟩] (by decide) (by decide),
    reflow_terminates.2.1 40 [⟨'a', 50⟩] [] 3,
    reflow_terminates.2.2.1 40 [⟨'a', 50⟩] [],
    reflow_terminates.2.2.2.1 initialB ⟨'q', 50⟩,
    reflow_terminates.2.2.2.2 initialA ⟨'m', 50⟩ 2 6 _ (by decide) (by decide)⟩

/-- C8: calling `sortKeys` with a key present in no row makes `getKeyPos`
signal not-found (`none`, never a valid position), aborts the operation —
the destructuring of the `undefined` lookup result throws before any
mutation — and leaves the layout completely unchanged, in both variants:
the error carries exactly the input layout. -/
theorem lookup_failure_aborts :
    ∀ (rows : List (List Key)) (pk : Key), pk ∉ rows.flatten →
      getKeyPos rows pk = none ∧
      sortKeysAErr rows pk = Except.error rows ∧
      (∀ bs : List Nat, sortKeysBErr ⟨rows, bs⟩ pk = Except.error ⟨rows, bs⟩) := by
  intro rows pk h
  have hpos : getKeyPos rows pk = none := getKeyPos_none.mpr h
  exact ⟨hpos, sortKeysAErr_eq_of_none hpos,
    fun bs => sortKeysBErr_eq_of_none hpos⟩

theorem lookup_failure_aborts_witness :
    getKeyPos initialA ⟨'!', 50⟩ = none ∧
    sortKeysAErr initialA ⟨'!', 50⟩ = Except.error initialA ∧
    sortKeysBErr ⟨initialA, [580, 510, 350]⟩ ⟨'!', 50⟩ =
      Except.error ⟨initialA, [580, 510, 350]⟩ := by
  have h := lookup_failure_aborts initialA ⟨'!', 50⟩ (by decide)
  exact ⟨h.1, h.2.1, h.2.2 [580, 510, 350]⟩

/-- C9: on a layout whose keys all share one positive width `w` and whose
`defaultRowWidth`s equal the rows' current total widths (their initial
membership), the width-budget reflow and the row-count reflow compute
identical final layouts for every press of a present key: promoting the
pressed key and shedding by width budget moves exactly the same keys to
exactly the same positions as moving one last key down from each row
strictly above the pressed key's old row. -/
theorem equal_width_policies_agree :
    ∀ (rows : List (List Key)) (w : Nat) (pk : Key) (r c : Nat),
      0 < w → (∀ k ∈ rows.flatten, k.width = w) →
      getKeyPos rows pk = some (r, c) →
      (sortKeysB ⟨rows, rows.map rowWidth⟩ pk).map KeyboardB.rows =
          sortKeysA rows pk ∧
        (sortKeysA rows pk).isSome := by
  intro rows w pk r c hw hall hpos
  have hposB : getKeyPos (KeyboardB.mk rows (rows.map rowWidth)).rows pk =
      some (r, c) := hpos
  rw [sortKeysB_eq_of_pos hposB, sortKeysA_eq_of_pos hpos,
    equalWidth_agree hw hall hpos]
  exact ⟨rfl, rfl⟩

theorem equal_width_policies_agree_witness :
    (sortKeysB ⟨[[⟨'q', 50⟩, ⟨'w', 50⟩], [⟨'a', 50⟩, ⟨'s', 50⟩], [⟨'z', 50⟩]],
        [[⟨'q', 50⟩, ⟨'w', 50⟩], [⟨'a', 50⟩, ⟨'s', 50⟩],
          [⟨'z', 50⟩]].map rowWidth⟩ ⟨'z', 50⟩).map KeyboardB.rows =
      sortKeysA [[⟨'q', 50⟩, ⟨'w', 50⟩], [⟨'a', 50⟩, ⟨'s', 50⟩], [⟨'z', 50⟩]]
        ⟨'z', 50⟩ ∧
    (sortKeysA [[⟨'q', 50⟩, ⟨'w', 50⟩], [⟨'a', 50⟩, ⟨'s', 50⟩], [⟨'z', 50⟩]]
        ⟨'z', 50⟩).isSome :=
  equal_width_policies_agree
    [[⟨'q', 50⟩, ⟨'w', 50⟩], [⟨'a', 50⟩, ⟨'s', 50⟩], [⟨'z', 50⟩]] 50
    ⟨'z', 50⟩ 2 0 (by decide) (by decide) (by decide)

/-- C10: `getKey(row, col)`'s documentation says it returns `null` exactly
when the position is out of bounds, but the column bound compares against
`this.keyRows[row].length`, a property `KeyboardRow` does not have, so the
check never fires: for the in-range row 0 of the 3-row keyboard (11 keys)
and the out-of-range column 11 the code returns JavaScript `undefined`, a
different sentinel than `null` — while negative or too-large rows and
negative columns do return `null`, and in-range positions return the stored
key. -/
theorem getKey_out_of_bounds_bug :
    getKey initialA 0 11 = JSVal.jsUndefined ∧
    JSVal.jsUndefined ≠ JSVal.jsNull ∧
    getKey initialA 0 10 = JSVal.jsKey ⟨'←', 80⟩ ∧
    getKey initialA (-1) 0 = JSVal.jsNull ∧
    getKey initialA 3 0 = JSVal.jsNull ∧
    getKey initialA 0 (-1) = JSVal.jsNull := by decide
